import Mathlib

/-!
Shallow embedding of the image similarity-grouping script (`src/main.py`).

The perceptual-hash provider (`imagehash.phash`) is an external collaborator:
an image file is modelled by its path together with the provider's result,
`none` when the file cannot be decoded (`PIL.Image.open` raises), and
`some fp` with `fp` the fingerprint bit-vector otherwise.  Hash subtraction
(`hash1 - hash2`) is the Hamming distance of the two bit-vectors.  Wall-clock
time is kept out of the embedding; the ETA formula of the progress reporter
is a pure function of the elapsed time, the completed count and the total.
Scores are rationals: every value the script manipulates is `raw / 256` with
`raw` a small integer, which binary floating point represents exactly.
-/

/-- An image file: its path and the fingerprint the provider yields for it
(`none` models a decode failure raised by `PIL.Image.open`). -/
structure ImageFile where
  path : String
  decoded : Option (List Bool)
deriving Repr, DecidableEq

/-- Hamming distance of two bit-vectors: the number of positions at which
they differ (`imagehash` hash subtraction). -/
def hashDiff (h1 h2 : List Bool) : ℕ :=
  ((h1.zip h2).filter (fun p => p.1 != p.2)).length

/-- Model of `calculate_similarity_index` (src/main.py lines 9-14): open both images,
hash each, return the raw integer distance.  A decode failure propagates as
an error carrying the failing path; image 1 is opened first. -/
def calculate_similarity_index (image1 image2 : ImageFile) : Except String ℕ :=
  match image1.decoded with
  | none => .error image1.path
  | some h1 =>
    match image2.decoded with
    | none => .error image2.path
    | some h2 => .ok (hashDiff h1 h2)

/-- Helper for `basename`: scan the characters, restarting the accumulator
after each path separator. -/
def basenameAux (acc : List Char) : List Char → List Char
  | [] => acc
  | c :: cs => if c = '/' then basenameAux [] cs else basenameAux (acc ++ [c]) cs

/-- Model of `os.path.basename`: the characters after the last separator. -/
def basename (p : String) : String :=
  ⟨basenameAux [] p.data⟩

/-- Line 56: `similarity_index /= 256`. -/
def normalizeScore (raw : ℕ) : ℚ :=
  (raw : ℚ) / 256

/-- Line 62: the f-string `f'Similarity Group {len(similarity_groups) + 1}'`
applied to `n = len + 1`. -/
def mkLabel (n : ℕ) : String :=
  "Similarity Group " ++ Nat.repr n

/-- One `(display name, similarity score)` entry of a group. -/
abbrev GroupEntry := String × ℚ

/-- The `similarity_groups` dict: insertion-ordered association list from
label to entry list, as Python dicts preserve insertion order. -/
abbrev Groups := List (String × List GroupEntry)

/-- Membership test `key in dict`. -/
def dictContains (d : Groups) (k : String) : Bool :=
  d.any (fun kv => kv.1 == k)

/-- Assignment `dict[k] = []`: a new key goes to the end of the iteration order. -/
def dictSetEmpty (d : Groups) (k : String) : Groups :=
  d ++ [(k, [])]

/-- Mutation `dict[k].append(v)`. -/
def dictAppend (d : Groups) (k : String) (v : GroupEntry) : Groups :=
  d.map (fun kv => if kv.1 == k then (kv.1, kv.2 ++ [v]) else kv)

/-- A line printed to standard output, with the data it carries (string
formatting of floats and wall-clock times is elided). -/
inductive ConsoleEvent where
  | header
  | pairLine (path1 path2 : String) (score : ℚ)
  | progressLine (progress total : ℕ)
  | footer (output_csv : String)
deriving Repr, DecidableEq

/-- The inner loop of `generate_similarity_groups` (lines 54-66): for a fixed
anchor `image_i`, scan the remaining images `rest` (the indices `j > i`),
compute each pair's normalized score, and on a qualifying edge open or extend
the anchor's group.  `sg` is the local variable `similarity_group`. -/
def innerLoop (image_i : ImageFile) (rest : List ImageFile)
    (similarity_threshold : ℚ) (verbose : Bool) (sg : Option String)
    (groups : Groups) (console : List ConsoleEvent) :
    Except String (Option String × Groups × List ConsoleEvent) :=
  match rest with
  | [] => .ok (sg, groups, console)
  | image_j :: rest' =>
    (calculate_similarity_index image_i image_j).bind fun raw =>
      let similarity_index := normalizeScore raw
      let console' := if verbose then
          console ++ [.pairLine image_i.path image_j.path similarity_index]
        else console
      if similarity_index ≥ similarity_threshold then
        let label := sg.getD (mkLabel (groups.length + 1))
        let g1 := if dictContains groups label then groups
          else dictSetEmpty groups label
        let g2 := dictAppend g1 label (basename image_i.path, similarity_index)
        let g3 := dictAppend g2 label (basename image_j.path, similarity_index)
        innerLoop image_i rest' similarity_threshold verbose (some label) g3 console'
      else
        innerLoop image_i rest' similarity_threshold verbose sg groups console'

/-- The outer loop (lines 52-74): each anchor starts with
`similarity_group = None`, runs the inner loop, then advances `progress` by
one and reports progress once per anchor. -/
def outerLoop (files : List ImageFile) (similarity_threshold : ℚ)
    (verbose : Bool) (total_images : ℕ) (progress : ℕ) (groups : Groups)
    (console : List ConsoleEvent) :
    Except String (ℕ × Groups × List ConsoleEvent) :=
  match files with
  | [] => .ok (progress, groups, console)
  | image_i :: rest =>
    (innerLoop image_i rest similarity_threshold verbose none groups console).bind
      fun r =>
        let progress' := progress + 1
        let console'' := if verbose then
            r.2.2 ++ [.progressLine progress' total_images]
          else r.2.2
        outerLoop rest similarity_threshold verbose total_images progress' r.2.1 console''

/-- A CSV cell: the header cells are strings, a data row holds the group
label, the display name, and the numeric score. -/
inductive Cell where
  | str (s : String)
  | num (q : ℚ)
deriving Repr, DecidableEq

/-- One row of the report. -/
abbrev CsvRow := List Cell

/-- Line 79: `writer.writerow(['Similarity Group', 'Image File', 'Similarity Index'])`. -/
def csvHeader : CsvRow :=
  [Cell.str "Similarity Group", Cell.str "Image File", Cell.str "Similarity Index"]

/-- Lines 77-83: the header row followed by one data row per group entry,
groups in dict iteration (= insertion) order. -/
def csvRows (groups : Groups) : List CsvRow :=
  csvHeader :: groups.flatMap (fun g =>
    g.2.map (fun image => [Cell.str g.1, Cell.str image.1, Cell.num image.2]))

/-- Everything a completed run produces. -/
structure RunOutput where
  groups : Groups
  csv : List CsvRow
  console : List ConsoleEvent
  progress : ℕ
deriving Repr, DecidableEq

/-- Model of `generate_similarity_groups` (lines 26-86), with file discovery (an
external collaborator) already performed: the discovered `image_files` list
is the input.  A decode error anywhere in the comparison phase propagates
and the CSV is never produced (the `with open` block at line 77 runs only
after both loops finish). -/
def generate_similarity_groups (image_files : List ImageFile)
    (similarity_threshold : ℚ) (output_csv : String) (verbose : Bool)
    (use_light_model : Bool) (batch_size : ℕ) : Except String RunOutput :=
  let console0 : List ConsoleEvent := if verbose then [.header] else []
  match outerLoop image_files similarity_threshold verbose image_files.length
      0 [] console0 with
  | .error e => .error e
  | .ok (progress, groups, console) =>
    let csv := csvRows groups
    let console' := if verbose then console ++ [.footer output_csv] else console
    .ok ⟨groups, csv, console', progress⟩

/-- Lines 70-72: `time_per_image = elapsed_time / progress if progress > 0
else 0; estimated_total_time = time_per_image * total_images;
eta = estimated_total_time - elapsed_time`. -/
def eta_calc (elapsed_time : ℚ) (progress total_images : ℕ) : ℚ :=
  let time_per_image := if 0 < progress then elapsed_time / progress else 0
  let estimated_total_time := time_per_image * total_images
  estimated_total_time - elapsed_time

/-- The sequence of ordered pairs the double loop visits: row-major, the
head against every later element, then the tail recursively. -/
def comparedPairs {α : Type} : List α → List (α × α)
  | [] => []
  | a :: rest => rest.map (fun b => (a, b)) ++ comparedPairs rest

/-- The score of a pair, both images assumed decoded (spec side; agrees with
the run wherever the run succeeds). -/
def pairScore (a b : ImageFile) : ℚ :=
  normalizeScore (hashDiff (a.decoded.getD []) (b.decoded.getD []))

/-- Spec-side description of one anchor's qualifying partners, in scan
order: the later images whose edge score meets the threshold, each with its
edge score. -/
def anchorPartners (t : ℚ) (a : ImageFile) (rest : List ImageFile) :
    List (String × ℚ) :=
  (rest.filter (fun b => t ≤ pairScore a b)).map
    (fun b => (basename b.path, pairScore a b))

/-- Spec-side entries of an anchor's group: for each qualifying partner, the
anchor's display name then the partner's, both carrying that edge's score
(the anchor entry is re-appended on every qualifying edge). -/
def anchorEntries (t : ℚ) (a : ImageFile) (rest : List ImageFile) :
    List GroupEntry :=
  (anchorPartners t a rest).flatMap
    (fun p => [(basename a.path, p.2), (p.1, p.2)])

/-- Spec-side grouping state machine of §4.3, labels continuing from `n`
groups already allocated: an anchor with no qualifying partner contributes
nothing; otherwise it contributes one fresh group labelled with the next
sequential integer. -/
def specGroupsAux (t : ℚ) : List ImageFile → ℕ → Groups
  | [], _ => []
  | a :: rest, n =>
    let es := anchorEntries t a rest
    if es.isEmpty then specGroupsAux t rest n
    else (mkLabel (n + 1), es) :: specGroupsAux t rest (n + 1)

/-- Spec-side groups of a whole run. -/
def specGroups (t : ℚ) (files : List ImageFile) : Groups :=
  specGroupsAux t files 0

/-- The pair lines one anchor prints while scanning its partners. -/
def pairLines (verbose : Bool) (a : ImageFile) (rest : List ImageFile) :
    List ConsoleEvent :=
  if verbose then
    rest.map (fun b => .pairLine a.path b.path (pairScore a b))
  else []

/-- The console output of the double loop from progress count `p` on. -/
def outerConsole (verbose : Bool) (total : ℕ) : ℕ → List ImageFile →
    List ConsoleEvent
  | _, [] => []
  | p, a :: rest =>
    pairLines verbose a rest
      ++ (if verbose then [ConsoleEvent.progressLine (p + 1) total] else [])
      ++ outerConsole verbose total (p + 1) rest

/-- Keep only the per-pair lines of a console transcript. -/
def consolePairLines (console : List ConsoleEvent) : List ConsoleEvent :=
  console.filter (fun e => match e with
    | .pairLine _ _ _ => true
    | _ => false)

/-- Keep only the per-anchor progress lines of a console transcript. -/
def consoleProgressLines (console : List ConsoleEvent) : List ConsoleEvent :=
  console.filter (fun e => match e with
    | .progressLine _ _ => true
    | _ => false)

/-- The labels of the first `n` groups, in allocation order. -/
def labelsRange (n : ℕ) : List String :=
  (List.range n).map (fun k => mkLabel (k + 1))

/-- The grouping outcome of a run: the groups and the report rows, without
the console transcript and progress counter. -/
def coreResult (r : Except String RunOutput) :
    Except String (Groups × List CsvRow) :=
  r.map (fun o => (o.groups, o.csv))

/-- Flatten a run's groups to their entries, in order. -/
def allEntries (groups : Groups) : List GroupEntry :=
  groups.flatMap (fun g => g.2)

def charVal (c : Char) : ℕ := c.toNat - 48

/-- The digit list `Nat.repr` renders: `[0]` for zero, else the base-10 digits. -/
def reprDigits (n : ℕ) : List ℕ := if n = 0 then [0] else Nat.digits 10 n

/-- The console transcript of a whole successful run. -/
def runConsole (v : Bool) (output_csv : String) (files : List ImageFile) :
    List ConsoleEvent :=
  (if v then [ConsoleEvent.header] else [])
    ++ outerConsole v files.length 0 files
    ++ (if v then [ConsoleEvent.footer output_csv] else [])

/-- Test fixture: one of three concrete images used to exercise the run. -/
def imgA : ImageFile := ⟨"imgs/a.jpg", some [false, false, true, true]⟩

/-- Test fixture: an image with the same fingerprint as `imgA`. -/
def imgB : ImageFile := ⟨"imgs/b.jpg", some [false, false, true, true]⟩

/-- Test fixture: an image whose fingerprint differs from `imgA` in all four
positions. -/
def imgC : ImageFile := ⟨"imgs/c.png", some [true, true, false, false]⟩

/-- Test fixture: an image that fails to decode. -/
def imgBad : ImageFile := ⟨"imgs/bad.jpg", none⟩

/-- Test fixture: the single group the run on `[imgA, imgC]` produces at a
low threshold. -/
def gAC : String × List GroupEntry :=
  ("Similarity Group 1", [("a.jpg", 1 / 64), ("c.png", 1 / 64)])

/-- Test fixture: the full output of a quiet run on `[imgA, imgC]` at a
threshold the single edge meets. -/
def outAC : RunOutput :=
  ⟨[gAC],
    [csvHeader, [Cell.str "Similarity Group 1", Cell.str "a.jpg", Cell.num (1 / 64)],
      [Cell.str "Similarity Group 1", Cell.str "c.png", Cell.num (1 / 64)]],
    [], 2⟩

/-- Test fixture: the full output of a verbose run on `[imgA, imgC]`. -/
def outACv : RunOutput :=
  ⟨[gAC],
    [csvHeader, [Cell.str "Similarity Group 1", Cell.str "a.jpg", Cell.num (1 / 64)],
      [Cell.str "Similarity Group 1", Cell.str "c.png", Cell.num (1 / 64)]],
    [ConsoleEvent.header, ConsoleEvent.pairLine "imgs/a.jpg" "imgs/c.png" (1 / 64),
      ConsoleEvent.progressLine 1 2, ConsoleEvent.progressLine 2 2,
      ConsoleEvent.footer "out.csv"], 2⟩

/-- Test fixture: the output of a quiet run on `[imgA, imgC]` at a threshold
the edge misses. -/
def outACempty : RunOutput := ⟨[], [csvHeader], [], 2⟩

theorem charVal_digitChar (d : ℕ) (hd : d < 10) :
    charVal (Nat.digitChar d) = d := by
  interval_cases d <;> rfl

theorem map_charVal_digitChar (ds : List ℕ) (h : ∀ d ∈ ds, d < 10) :
    (ds.map Nat.digitChar).map charVal = ds := by
  induction ds with
  | nil => rfl
  | cons d ds ih =>
    simp only [List.map_cons, List.cons.injEq]
    exact ⟨charVal_digitChar d (h d (List.mem_cons_self d ds)),
      ih fun x hx => h x (List.mem_cons_of_mem d hx)⟩

theorem toDigitsCore_eq (fuel : ℕ) : ∀ (n : ℕ) (ds : List Char), 0 < n → n < fuel →
    Nat.toDigitsCore 10 fuel n ds =
      ((Nat.digits 10 n).map Nat.digitChar).reverse ++ ds := by
  induction fuel with
  | zero => intro n ds _ hf; omega
  | succ f ih =>
    intro n ds hn hf
    have hdig : Nat.digits 10 n = n % 10 :: Nat.digits 10 (n / 10) :=
      Nat.digits_def' (by norm_num) hn
    by_cases h0 : n / 10 = 0
    · have : Nat.toDigitsCore 10 (f + 1) n ds = Nat.digitChar (n % 10) :: ds := by
        simp [Nat.toDigitsCore, h0]
      rw [this, hdig, h0]
      simp
    · have hlt : n / 10 < n := Nat.div_lt_self hn (by norm_num)
      have : Nat.toDigitsCore 10 (f + 1) n ds =
          Nat.toDigitsCore 10 f (n / 10) (Nat.digitChar (n % 10) :: ds) := by
        simp [Nat.toDigitsCore, h0]
      rw [this, ih (n / 10) _ (Nat.pos_of_ne_zero h0) (by omega), hdig]
      simp

theorem toDigits_eq (n : ℕ) :
    Nat.toDigits 10 n = ((reprDigits n).map Nat.digitChar).reverse := by
  by_cases h : n = 0
  · subst h; rfl
  · rw [reprDigits, if_neg h, Nat.toDigits,
      toDigitsCore_eq (n + 1) n [] (Nat.pos_of_ne_zero h) (by omega)]
    simp

theorem reprDigits_lt (n : ℕ) : ∀ d ∈ reprDigits n, d < 10 := by
  intro d hd
  by_cases h : n = 0
  · subst h; simp [reprDigits] at hd; omega
  · rw [reprDigits, if_neg h] at hd
    exact Nat.digits_lt_base (by norm_num) hd

theorem ofDigits_reprDigits (n : ℕ) : Nat.ofDigits 10 (reprDigits n) = n := by
  by_cases h : n = 0
  · subst h; simp [reprDigits, Nat.ofDigits]
  · rw [reprDigits, if_neg h, Nat.ofDigits_digits]

theorem nat_repr_inj {m n : ℕ} (h : Nat.repr m = Nat.repr n) : m = n := by
  have hd : Nat.toDigits 10 m = Nat.toDigits 10 n := by
    have := congrArg String.data h
    simpa [Nat.repr, List.asString] using this
  rw [toDigits_eq, toDigits_eq] at hd
  have h2 : (reprDigits m).map Nat.digitChar = (reprDigits n).map Nat.digitChar :=
    List.reverse_injective hd
  have h3 : reprDigits m = reprDigits n := by
    rw [← map_charVal_digitChar (reprDigits m) (reprDigits_lt m),
      ← map_charVal_digitChar (reprDigits n) (reprDigits_lt n), h2]
  calc m = Nat.ofDigits 10 (reprDigits m) := (ofDigits_reprDigits m).symm
    _ = Nat.ofDigits 10 (reprDigits n) := by rw [h3]
    _ = n := ofDigits_reprDigits n

theorem mkLabel_inj {m n : ℕ} (h : mkLabel m = mkLabel n) : m = n := by
  apply nat_repr_inj
  have := congrArg String.data h
  simp only [mkLabel, String.data_append] at this
  have := List.append_cancel_left this
  exact String.ext this

theorem mkLabel_not_mem_labelsRange (n : ℕ) : mkLabel (n + 1) ∉ labelsRange n := by
  intro hmem
  rw [labelsRange] at hmem
  obtain ⟨k, hk, heq⟩ := List.mem_map.mp hmem
  have hkn := List.mem_range.mp hk
  have := mkLabel_inj heq.symm
  omega

theorem labelsRange_succ (n : ℕ) :
    labelsRange (n + 1) = labelsRange n ++ [mkLabel (n + 1)] := by
  simp [labelsRange, List.range_succ]

theorem dictContains_eq_false {G : Groups} {k : String}
    (h : k ∉ G.map Prod.fst) : dictContains G k = false := by
  rw [dictContains]
  simp only [List.any_eq_false]
  intro kv hkv hbeq
  exact h (List.mem_map.mpr ⟨kv, hkv, beq_iff_eq.mp hbeq⟩)

theorem hashDiff_self (h : List Bool) : hashDiff h h = 0 := by
  rw [hashDiff]
  induction h with
  | nil => rfl
  | cons b t ih => simpa [List.zip_cons_cons] using ih

theorem hashDiff_le_length (h1 h2 : List Bool) :
    hashDiff h1 h2 ≤ h1.length := by
  calc hashDiff h1 h2 ≤ (h1.zip h2).length := List.length_filter_le _ _
    _ ≤ h1.length := by rw [List.length_zip]; omega

theorem pairScore_eq {a b : ImageFile} {xa xb : List Bool}
    (ha : a.decoded = some xa) (hb : b.decoded = some xb) :
    normalizeScore (hashDiff xa xb) = pairScore a b := by
  simp [pairScore, ha, hb]

theorem calculate_ok {a b : ImageFile} {xa xb : List Bool}
    (ha : a.decoded = some xa) (hb : b.decoded = some xb) :
    calculate_similarity_index a b = .ok (hashDiff xa xb) := by
  simp [calculate_similarity_index, ha, hb]

theorem anchorEntries_nil (t : ℚ) (a : ImageFile) :
    anchorEntries t a [] = [] := rfl

theorem anchorEntries_cons_pos {t : ℚ} {a b : ImageFile} (rest : List ImageFile)
    (h : t ≤ pairScore a b) :
    anchorEntries t a (b :: rest) =
      (basename a.path, pairScore a b) :: (basename b.path, pairScore a b) ::
        anchorEntries t a rest := by
  simp [anchorEntries, anchorPartners, List.filter_cons, h]

theorem anchorEntries_cons_neg {t : ℚ} {a b : ImageFile} (rest : List ImageFile)
    (h : ¬ t ≤ pairScore a b) :
    anchorEntries t a (b :: rest) = anchorEntries t a rest := by
  simp [anchorEntries, anchorPartners, List.filter_cons, h]

theorem pairLines_nil (v : Bool) (a : ImageFile) : pairLines v a [] = [] := by
  cases v <;> rfl

theorem pairLines_cons (v : Bool) (a b : ImageFile) (rest : List ImageFile) :
    pairLines v a (b :: rest) =
      (if v then [ConsoleEvent.pairLine a.path b.path (pairScore a b)] else [])
        ++ pairLines v a rest := by
  cases v <;> simp [pairLines]

theorem console_step_assoc (v : Bool) (C : List ConsoleEvent) (x : ConsoleEvent)
    (L : List ConsoleEvent) :
    (if v then C ++ [x] else C) ++ L = C ++ ((if v then [x] else []) ++ L) := by
  cases v <;> simp

theorem dictContains_append_self (G : Groups) (l : String)
    (es : List GroupEntry) : dictContains (G ++ [(l, es)]) l = true := by
  simp [dictContains]

theorem dictAppend_append_fresh {G : Groups} {l : String}
    (hfresh : l ∉ G.map Prod.fst) (es : List GroupEntry) (e : GroupEntry) :
    dictAppend (G ++ [(l, es)]) l e = G ++ [(l, es ++ [e])] := by
  rw [dictAppend, List.map_append]
  congr 1
  · conv_rhs => rw [← List.map_id G]
    apply List.map_congr_left
    intro kv hkv
    have : kv.1 ≠ l := by
      intro h
      exact hfresh (List.mem_map.mpr ⟨kv, hkv, h⟩)
    simp [this]
  · simp

theorem innerLoop_some (a : ImageFile) (t : ℚ) (v : Bool) (l : String)
    (G : Groups) (hfresh : l ∉ G.map Prod.fst) {xa : List Bool}
    (ha : a.decoded = some xa) :
    ∀ (rest : List ImageFile), (∀ b ∈ rest, b.decoded.isSome) →
    ∀ (es0 : List GroupEntry) (C : List ConsoleEvent),
    innerLoop a rest t v (some l) (G ++ [(l, es0)]) C =
      .ok (some l, G ++ [(l, es0 ++ anchorEntries t a rest)],
        C ++ pairLines v a rest) := by
  intro rest
  induction rest with
  | nil => intro _ es0 C; simp [innerLoop, pairLines_nil, anchorEntries_nil]
  | cons b rest' ih =>
    intro hdec es0 C
    obtain ⟨xb, hb⟩ := Option.isSome_iff_exists.mp (hdec b (List.mem_cons_self b rest'))
    have hdec' : ∀ x ∈ rest', x.decoded.isSome :=
      fun x hx => hdec x (List.mem_cons_of_mem b hx)
    rw [innerLoop, calculate_ok ha hb]
    simp only [Except.bind, pairScore_eq ha hb, ge_iff_le, Option.getD_some]
    by_cases hq : t ≤ pairScore a b
    · rw [if_pos hq, dictContains_append_self, if_pos rfl,
        dictAppend_append_fresh hfresh, dictAppend_append_fresh hfresh,
        ih hdec' _ _, anchorEntries_cons_pos rest' hq, pairLines_cons,
        console_step_assoc]
      simp
    · rw [if_neg hq, ih hdec' _ _, anchorEntries_cons_neg rest' hq,
        pairLines_cons, console_step_assoc]

theorem innerLoop_none (a : ImageFile) (t : ℚ) (v : Bool) (G : Groups)
    (hfresh : mkLabel (G.length + 1) ∉ G.map Prod.fst) {xa : List Bool}
    (ha : a.decoded = some xa) :
    ∀ (rest : List ImageFile), (∀ b ∈ rest, b.decoded.isSome) →
    ∀ (C : List ConsoleEvent),
    innerLoop a rest t v none G C =
      .ok (if anchorEntries t a rest = []
        then (none, G, C ++ pairLines v a rest)
        else (some (mkLabel (G.length + 1)),
          G ++ [(mkLabel (G.length + 1), anchorEntries t a rest)],
          C ++ pairLines v a rest)) := by
  intro rest
  induction rest with
  | nil =>
    intro _ C
    rw [anchorEntries_nil, if_pos rfl, pairLines_nil]
    simp [innerLoop]
  | cons b rest' ih =>
    intro hdec C
    obtain ⟨xb, hb⟩ := Option.isSome_iff_exists.mp (hdec b (List.mem_cons_self b rest'))
    have hdec' : ∀ x ∈ rest', x.decoded.isSome :=
      fun x hx => hdec x (List.mem_cons_of_mem b hx)
    rw [innerLoop, calculate_ok ha hb]
    simp only [Except.bind, pairScore_eq ha hb, ge_iff_le, Option.getD_none]
    by_cases hq : t ≤ pairScore a b
    · rw [if_pos hq]
      have hne : anchorEntries t a (b :: rest') ≠ [] := by
        rw [anchorEntries_cons_pos rest' hq]; simp
      rw [if_neg hne, dictContains_eq_false hfresh]
      simp only [Bool.false_eq_true, if_false, dictSetEmpty]
      rw [dictAppend_append_fresh hfresh, dictAppend_append_fresh hfresh,
        innerLoop_some a t v _ G hfresh ha rest' hdec' _ _,
        anchorEntries_cons_pos rest' hq, pairLines_cons, console_step_assoc]
      simp
    · rw [if_neg hq, ih hdec' _, anchorEntries_cons_neg rest' hq,
        pairLines_cons, console_step_assoc]

theorem outerLoop_eq (t : ℚ) (v : Bool) (total : ℕ) :
    ∀ (files : List ImageFile), (∀ f ∈ files, f.decoded.isSome) →
    ∀ (p : ℕ) (G : Groups), G.map Prod.fst = labelsRange G.length →
    ∀ (C : List ConsoleEvent),
    outerLoop files t v total p G C =
      .ok (p + files.length, G ++ specGroupsAux t files G.length,
        C ++ outerConsole v total p files) := by
  intro files
  induction files with
  | nil => intro _ p G _ C; simp [outerLoop, specGroupsAux, outerConsole]
  | cons a rest ih =>
    intro hdec p G hkeys C
    obtain ⟨xa, ha⟩ := Option.isSome_iff_exists.mp
      (hdec a (List.mem_cons_self a rest))
    have hdec' : ∀ x ∈ rest, x.decoded.isSome :=
      fun x hx => hdec x (List.mem_cons_of_mem a hx)
    have hfresh : mkLabel (G.length + 1) ∉ G.map Prod.fst := by
      rw [hkeys]; exact mkLabel_not_mem_labelsRange G.length
    rw [outerLoop, innerLoop_none a t v G hfresh ha rest hdec' C]
    by_cases he : anchorEntries t a rest = []
    · rw [if_pos he]
      simp only [Except.bind]
      rw [ih hdec' (p + 1) G hkeys]
      have harith : p + (a :: rest).length = (p + 1) + rest.length := by
        simp; omega
      rw [harith]
      have hgrp : specGroupsAux t (a :: rest) G.length =
          specGroupsAux t rest G.length := by
        rw [specGroupsAux]
        simp [he]
      rw [hgrp, outerConsole, console_step_assoc]
      simp
    · rw [if_neg he]
      simp only [Except.bind]
      have hkeys' : ((G ++ [(mkLabel (G.length + 1), anchorEntries t a rest)]).map
          Prod.fst) = labelsRange ((G ++ [(mkLabel (G.length + 1),
            anchorEntries t a rest)]).length) := by
        simp [hkeys, labelsRange_succ]
      rw [ih hdec' (p + 1) _ hkeys']
      have harith : p + (a :: rest).length = (p + 1) + rest.length := by
        simp; omega
      rw [harith]
      have hgrp : G ++ specGroupsAux t (a :: rest) G.length =
          (G ++ [(mkLabel (G.length + 1), anchorEntries t a rest)]) ++
            specGroupsAux t rest
              ((G ++ [(mkLabel (G.length + 1), anchorEntries t a rest)]).length) := by
        rw [specGroupsAux]
        simp [he]
      rw [hgrp, outerConsole, console_step_assoc]
      simp

theorem generate_eq (files : List ImageFile) (t : ℚ) (p : String) (v u : Bool)
    (b : ℕ) (hdec : ∀ f ∈ files, f.decoded.isSome) :
    generate_similarity_groups files t p v u b =
      .ok ⟨specGroups t files, csvRows (specGroups t files),
        (if v then [ConsoleEvent.header] else [])
          ++ outerConsole v files.length 0 files
          ++ (if v then [ConsoleEvent.footer p] else []),
        files.length⟩ := by
  rw [generate_similarity_groups,
    outerLoop_eq t v files.length files hdec 0 [] rfl]
  simp only [specGroups]
  cases v <;> simp

theorem innerLoop_error_head (a b : ImageFile) (rest : List ImageFile)
    (t : ℚ) (v : Bool) (sg : Option String) (G : Groups)
    (C : List ConsoleEvent) (ha : a.decoded = none) :
    innerLoop a (b :: rest) t v sg G C = .error a.path := by
  rw [innerLoop]
  simp [calculate_similarity_index, ha, Except.bind]

theorem innerLoop_error_mem (a : ImageFile) {xa : List Bool}
    (ha : a.decoded = some xa) :
    ∀ (rest : List ImageFile) (f : ImageFile), f ∈ rest → f.decoded = none →
    ∀ (t : ℚ) (v : Bool) (sg : Option String) (G : Groups)
      (C : List ConsoleEvent),
    ∃ e, innerLoop a rest t v sg G C = .error e := by
  intro rest
  induction rest with
  | nil => intro f hf; simp at hf
  | cons b rest' ih =>
    intro f hf hfnone t v sg G C
    rcases List.mem_cons.mp hf with hfb | hfr
    · subst hfb
      refine ⟨f.path, ?_⟩
      rw [innerLoop]
      simp [calculate_similarity_index, ha, hfnone, Except.bind]
    · cases hxb : b.decoded with
      | none =>
        refine ⟨b.path, ?_⟩
        rw [innerLoop]
        simp [calculate_similarity_index, ha, hxb, Except.bind]
      | some xb =>
        rw [innerLoop, calculate_ok ha hxb]
        simp only [Except.bind, pairScore_eq ha hxb, ge_iff_le]
        by_cases hq : t ≤ pairScore a b
        · rw [if_pos hq]; exact ih f hfr hfnone t v _ _ _
        · rw [if_neg hq]; exact ih f hfr hfnone t v _ _ _

theorem outerLoop_error (a : ImageFile) (rest : List ImageFile)
    (hbad : ∃ f ∈ a :: rest, f.decoded = none) (hne : rest ≠ [])
    (t : ℚ) (v : Bool) (total p : ℕ) (G : Groups) (C : List ConsoleEvent) :
    ∃ e, outerLoop (a :: rest) t v total p G C = .error e := by
  obtain ⟨f, hf, hfnone⟩ := hbad
  cases hxa : a.decoded with
  | none =>
    obtain ⟨b, rest', rfl⟩ := List.exists_cons_of_ne_nil hne
    refine ⟨a.path, ?_⟩
    rw [outerLoop, innerLoop_error_head a b rest' t v none G C hxa]
    rfl
  | some xa =>
    have hfr : f ∈ rest := by
      rcases List.mem_cons.mp hf with rfl | h
      · rw [hxa] at hfnone; cases hfnone
      · exact h
    obtain ⟨e, he⟩ := innerLoop_error_mem a hxa rest f hfr hfnone t v none G C
    refine ⟨e, ?_⟩
    rw [outerLoop, he]
    rfl

theorem generate_error (files : List ImageFile) (t : ℚ) (p : String)
    (v u : Bool) (b : ℕ) (hbad : ∃ f ∈ files, f.decoded = none)
    (hlen : 2 ≤ files.length) :
    ∃ e, generate_similarity_groups files t p v u b = .error e := by
  cases files with
  | nil => simp at hlen
  | cons a rest =>
    have hne : rest ≠ [] := by
      intro h; subst h; simp at hlen
    obtain ⟨e, he⟩ := outerLoop_error a rest hbad hne t v (a :: rest).length 0 []
      (if v then [ConsoleEvent.header] else [])
    refine ⟨e, ?_⟩
    rw [generate_similarity_groups]
    simp only []
    rw [he]

theorem innerLoop_core_indep (a : ImageFile) :
    ∀ (rest : List ImageFile) (t : ℚ) (v1 v2 : Bool) (sg : Option String)
      (G : Groups) (C1 C2 : List ConsoleEvent),
    (innerLoop a rest t v1 sg G C1).map (fun r => (r.1, r.2.1)) =
      (innerLoop a rest t v2 sg G C2).map (fun r => (r.1, r.2.1)) := by
  intro rest
  induction rest with
  | nil => intro t v1 v2 sg G C1 C2; rfl
  | cons b rest' ih =>
    intro t v1 v2 sg G C1 C2
    rw [innerLoop, innerLoop]
    cases hcalc : calculate_similarity_index a b with
    | error e => rfl
    | ok raw =>
      simp only [Except.bind]
      by_cases hq : normalizeScore raw ≥ t
      · rw [if_pos hq, if_pos hq]
        exact ih t v1 v2 _ _ _ _
      · rw [if_neg hq, if_neg hq]
        exact ih t v1 v2 sg G _ _

theorem outerLoop_core_indep :
    ∀ (files : List ImageFile) (t : ℚ) (v1 v2 : Bool) (total p : ℕ)
      (G : Groups) (C1 C2 : List ConsoleEvent),
    (outerLoop files t v1 total p G C1).map (fun r => (r.1, r.2.1)) =
      (outerLoop files t v2 total p G C2).map (fun r => (r.1, r.2.1)) := by
  intro files
  induction files with
  | nil => intro t v1 v2 total p G C1 C2; rfl
  | cons a rest ih =>
    intro t v1 v2 total p G C1 C2
    rw [outerLoop, outerLoop]
    have h := innerLoop_core_indep a rest t v1 v2 none G C1 C2
    cases h1 : innerLoop a rest t v1 none G C1 with
    | error e =>
      cases h2 : innerLoop a rest t v2 none G C2 with
      | error e2 =>
        rw [h1, h2] at h
        simp only [Except.map] at h
        cases h
        rfl
      | ok r2 =>
        rw [h1, h2] at h
        simp [Except.map] at h
    | ok r1 =>
      cases h2 : innerLoop a rest t v2 none G C2 with
      | error e2 =>
        rw [h1, h2] at h
        simp [Except.map] at h
      | ok r2 =>
        rw [h1, h2] at h
        simp only [Except.map, Except.ok.injEq] at h
        simp only [Except.bind]
        have hg : r1.2.1 = r2.2.1 := congrArg Prod.snd h
        rw [hg]
        exact ih t v1 v2 total (p + 1) _ _ _

theorem generate_core_indep (files : List ImageFile) (t : ℚ) (p : String)
    (v1 u1 : Bool) (b1 : ℕ) (v2 u2 : Bool) (b2 : ℕ) :
    coreResult (generate_similarity_groups files t p v1 u1 b1) =
      coreResult (generate_similarity_groups files t p v2 u2 b2) := by
  rw [generate_similarity_groups, generate_similarity_groups]
  simp only []
  have h := outerLoop_core_indep files t v1 v2 files.length 0 []
    (if v1 then [ConsoleEvent.header] else [])
    (if v2 then [ConsoleEvent.header] else [])
  cases h1 : outerLoop files t v1 files.length 0 []
      (if v1 then [ConsoleEvent.header] else []) with
  | error e =>
    cases h2 : outerLoop files t v2 files.length 0 []
        (if v2 then [ConsoleEvent.header] else []) with
    | error e2 =>
      rw [h1, h2] at h
      simp only [Except.map] at h
      cases h
      rfl
    | ok r2 =>
      rw [h1, h2] at h
      simp [Except.map] at h
  | ok r1 =>
    cases h2 : outerLoop files t v2 files.length 0 []
        (if v2 then [ConsoleEvent.header] else []) with
    | error e2 =>
      rw [h1, h2] at h
      simp [Except.map] at h
    | ok r2 =>
      rw [h1, h2] at h
      simp only [Except.map, Except.ok.injEq] at h
      have hg : r1.2.1 = r2.2.1 := congrArg Prod.snd h
      simp [coreResult, Except.map, hg]

theorem comparedPairs_length_double {α : Type} (l : List α) :
    2 * (comparedPairs l).length = l.length * (l.length - 1) := by
  induction l with
  | nil => rfl
  | cons a rest ih =>
    rw [comparedPairs]
    simp only [List.length_append, List.length_map, List.length_cons]
    cases hn : rest.length with
    | zero =>
      rw [hn] at ih
      omega
    | succ m =>
      rw [hn] at ih
      simp only [Nat.succ_sub_one] at ih ⊢
      calc 2 * (m + 1 + (comparedPairs rest).length)
          = 2 * (m + 1) + 2 * (comparedPairs rest).length := by ring
        _ = 2 * (m + 1) + (m + 1) * m := by rw [ih]
        _ = (m + 1 + 1) * (m + 1) := by ring

theorem comparedPairs_length {α : Type} (l : List α) :
    (comparedPairs l).length = l.length * (l.length - 1) / 2 := by
  have := comparedPairs_length_double l
  omega

theorem comparedPairs_range'_mem (n : ℕ) : ∀ (s i j : ℕ),
    ((i, j) ∈ comparedPairs (List.range' s n)) ↔ (s ≤ i ∧ i < j ∧ j < s + n) := by
  induction n with
  | zero =>
    intro s i j
    simp only [List.range', comparedPairs, List.not_mem_nil, false_iff]
    omega
  | succ m ih =>
    intro s i j
    rw [List.range'_succ, comparedPairs]
    simp only [List.mem_append, List.mem_map, List.mem_range', ih, Prod.mk.injEq]
    constructor
    · rintro (⟨b, ⟨k, hk, rfl⟩, rfl, rfl⟩ | ⟨h1, h2, h3⟩) <;> omega
    · rintro ⟨h1, h2, h3⟩
      by_cases his : i = s
      · subst his
        left
        exact ⟨j, ⟨j - (i + 1), by omega⟩, rfl, rfl⟩
      · right
        omega

theorem comparedPairs_range'_nodup (n : ℕ) :
    ∀ s : ℕ, (comparedPairs (List.range' s n)).Nodup := by
  induction n with
  | zero => intro s; simp [List.range', comparedPairs]
  | succ m ih =>
    intro s
    rw [List.range'_succ, comparedPairs]
    apply List.Nodup.append
    · apply List.Nodup.map
      · intro b1 b2 h
        exact congrArg Prod.snd h
      · exact List.nodup_range' _ _
    · exact ih (s + 1)
    · intro p hp1 hp2
      obtain ⟨b, hb, rfl⟩ := List.mem_map.mp hp1
      have := (comparedPairs_range'_mem m (s + 1) s b).mp hp2
      omega

theorem comparedPairs_range_mem (n i j : ℕ) :
    ((i, j) ∈ comparedPairs (List.range n)) ↔ (i < j ∧ j < n) := by
  rw [List.range_eq_range', comparedPairs_range'_mem n 0 i j]
  omega

theorem comparedPairs_range_nodup (n : ℕ) :
    (comparedPairs (List.range n)).Nodup := by
  rw [List.range_eq_range']
  exact comparedPairs_range'_nodup n 0

theorem consolePairLines_append (c1 c2 : List ConsoleEvent) :
    consolePairLines (c1 ++ c2) =
      consolePairLines c1 ++ consolePairLines c2 := by
  simp [consolePairLines]

theorem consoleProgressLines_append (c1 c2 : List ConsoleEvent) :
    consoleProgressLines (c1 ++ c2) =
      consoleProgressLines c1 ++ consoleProgressLines c2 := by
  simp [consoleProgressLines]

theorem consolePairLines_outerConsole (total : ℕ) :
    ∀ (files : List ImageFile) (p : ℕ),
    consolePairLines (outerConsole true total p files) =
      (comparedPairs files).map
        (fun ab => ConsoleEvent.pairLine ab.1.path ab.2.path (pairScore ab.1 ab.2)) := by
  intro files
  induction files with
  | nil => intro p; rfl
  | cons a rest ih =>
    intro p
    rw [outerConsole, comparedPairs, consolePairLines_append,
      consolePairLines_append, ih (p + 1)]
    simp [consolePairLines, pairLines, List.filter_map, Function.comp_def]

theorem consoleProgressLines_outerConsole (total : ℕ) :
    ∀ (files : List ImageFile) (p : ℕ),
    (consoleProgressLines (outerConsole true total p files)).length =
      files.length := by
  intro files
  induction files with
  | nil => intro p; rfl
  | cons a rest ih =>
    intro p
    rw [outerConsole, consoleProgressLines_append, consoleProgressLines_append]
    simp only [List.length_append, ih (p + 1)]
    simp [consoleProgressLines, pairLines, List.filter_map, Function.comp_def]
    omega

theorem generate_nil (t : ℚ) (p : String) (v u : Bool) (b : ℕ) :
    generate_similarity_groups [] t p v u b =
      .ok ⟨[], [csvHeader], runConsole v p [], 0⟩ := by
  cases v <;> rfl

theorem generate_singleton (a : ImageFile) (t : ℚ) (p : String) (v u : Bool)
    (b : ℕ) :
    generate_similarity_groups [a] t p v u b =
      .ok ⟨[], [csvHeader], runConsole v p [a], 1⟩ := by
  cases v <;> rfl

theorem generate_eq' (files : List ImageFile) (t : ℚ) (p : String) (v u : Bool)
    (b : ℕ) (hdec : ∀ f ∈ files, f.decoded.isSome) :
    generate_similarity_groups files t p v u b =
      .ok ⟨specGroups t files, csvRows (specGroups t files),
        runConsole v p files, files.length⟩ := by
  rw [runConsole, generate_eq files t p v u b hdec]

theorem generate_ok_eq {files : List ImageFile} {t : ℚ} {p : String}
    {v u : Bool} {b : ℕ} {out : RunOutput}
    (h : generate_similarity_groups files t p v u b = .ok out) :
    out = ⟨specGroups t files, csvRows (specGroups t files),
      runConsole v p files, files.length⟩ := by
  by_cases hbad : ∃ f ∈ files, f.decoded = none
  · match files, hbad, h with
    | [a], _, h =>
      rw [generate_singleton a t p v u b] at h
      cases h
      rfl
    | a :: c :: rest, hbad, h =>
      obtain ⟨e, he⟩ := generate_error (a :: c :: rest) t p v u b hbad (by simp)
      rw [he] at h
      cases h
  · have hdec : ∀ f ∈ files, f.decoded.isSome := by
      intro f hf
      cases hd : f.decoded with
      | none => exact absurd ⟨f, hf, hd⟩ hbad
      | some x => rfl
    rw [generate_eq' files t p v u b hdec] at h
    cases h
    rfl

theorem generate_ok_groups {files : List ImageFile} {t : ℚ} {p : String}
    {v u : Bool} {b : ℕ} {out : RunOutput}
    (h : generate_similarity_groups files t p v u b = .ok out) :
    out.groups = specGroups t files := by
  rw [generate_ok_eq h]

theorem specGroupsAux_mem {t : ℚ} :
    ∀ {files : List ImageFile} {n : ℕ} {g : String × List GroupEntry},
    g ∈ specGroupsAux t files n →
    ∃ (a : ImageFile) (rest : List ImageFile),
      g.2 = anchorEntries t a rest ∧ g.2 ≠ [] := by
  intro files
  induction files with
  | nil => intro n g hg; simp [specGroupsAux] at hg
  | cons a rest ih =>
    intro n g hg
    simp only [specGroupsAux] at hg
    by_cases he : (anchorEntries t a rest).isEmpty
    · rw [if_pos he] at hg
      exact ih hg
    · rw [if_neg he] at hg
      rcases List.mem_cons.mp hg with rfl | h
      · exact ⟨a, rest, rfl, by simpa [List.isEmpty_iff] using he⟩
      · exact ih h

theorem chunk_length (na : String) (ps : List (String × ℚ)) :
    (ps.flatMap (fun q => [(na, q.2), (q.1, q.2)])).length = 2 * ps.length := by
  induction ps with
  | nil => rfl
  | cons q ps ih =>
    simp only [List.flatMap_cons, List.length_append, List.length_cons, ih]
    simp
    omega

theorem chunk_get? (na : String) :
    ∀ (ps : List (String × ℚ)) (k : ℕ),
    ((ps.flatMap (fun q => [(na, q.2), (q.1, q.2)])).get? (2 * k) =
      (ps.get? k).map (fun q => (na, q.2))) ∧
    ((ps.flatMap (fun q => [(na, q.2), (q.1, q.2)])).get? (2 * k + 1) =
      ps.get? k) := by
  intro ps
  induction ps with
  | nil => intro k; simp
  | cons q ps ih =>
    intro k
    cases k with
    | zero => simp
    | succ m =>
      have h1 : 2 * (m + 1) = (2 * m) + 1 + 1 := by omega
      rw [h1]
      simp only [List.flatMap_cons, List.cons_append, List.get?_cons_succ]
      exact ih m

theorem anchorEntries_chunk (t : ℚ) (a : ImageFile) (rest : List ImageFile) :
    anchorEntries t a rest = (anchorPartners t a rest).flatMap
      (fun q => [(basename a.path, q.2), (q.1, q.2)]) := rfl

theorem anchorEntries_sublist {t1 t2 : ℚ} (h12 : t1 ≤ t2) (a : ImageFile) :
    ∀ rest : List ImageFile,
    (anchorEntries t2 a rest).Sublist (anchorEntries t1 a rest) := by
  intro rest
  induction rest with
  | nil => simp [anchorEntries_nil]
  | cons b rest' ih =>
    by_cases hq2 : t2 ≤ pairScore a b
    · rw [anchorEntries_cons_pos rest' hq2,
        anchorEntries_cons_pos rest' (le_trans h12 hq2)]
      exact (ih.cons₂ _).cons₂ _
    · rw [anchorEntries_cons_neg rest' hq2]
      by_cases hq1 : t1 ≤ pairScore a b
      · rw [anchorEntries_cons_pos rest' hq1]
        exact (ih.cons _).cons _
      · rw [anchorEntries_cons_neg rest' hq1]
        exact ih

theorem allEntries_specGroupsAux_sublist {t1 t2 : ℚ} (h12 : t1 ≤ t2) :
    ∀ (files : List ImageFile) (n1 n2 : ℕ),
    (allEntries (specGroupsAux t2 files n1)).Sublist
      (allEntries (specGroupsAux t1 files n2)) := by
  intro files
  induction files with
  | nil => intro n1 n2; simp [specGroupsAux]
  | cons a rest ih =>
    intro n1 n2
    simp only [specGroupsAux]
    have hsub := anchorEntries_sublist h12 a rest
    by_cases he2 : (anchorEntries t2 a rest).isEmpty
    · rw [if_pos he2]
      by_cases he1 : (anchorEntries t1 a rest).isEmpty
      · rw [if_pos he1]
        exact ih n1 n2
      · rw [if_neg he1]
        have : allEntries ((mkLabel (n2 + 1), anchorEntries t1 a rest) ::
            specGroupsAux t1 rest (n2 + 1)) =
            anchorEntries t1 a rest ++ allEntries (specGroupsAux t1 rest (n2 + 1)) := by
          simp [allEntries]
        rw [this]
        exact (ih n1 (n2 + 1)).trans (List.sublist_append_right _ _)
    · have he1 : ¬ (anchorEntries t1 a rest).isEmpty := by
        intro h
        rw [List.isEmpty_iff] at h he2
        rw [h] at hsub
        exact he2 (List.sublist_nil.mp hsub)
      rw [if_neg he2, if_neg he1]
      have hl : allEntries ((mkLabel (n1 + 1), anchorEntries t2 a rest) ::
          specGroupsAux t2 rest (n1 + 1)) =
          anchorEntries t2 a rest ++ allEntries (specGroupsAux t2 rest (n1 + 1)) := by
        simp [allEntries]
      have hr : allEntries ((mkLabel (n2 + 1), anchorEntries t1 a rest) ::
          specGroupsAux t1 rest (n2 + 1)) =
          anchorEntries t1 a rest ++ allEntries (specGroupsAux t1 rest (n2 + 1)) := by
        simp [allEntries]
      rw [hl, hr]
      exact hsub.append (ih (n1 + 1) (n2 + 1))

/-- C2: the claim says the normalizer divides by the bit-length `L`; the code
divides by the constant 256 (line 56) whatever the fingerprint length is.
With the common `L = 64` a maximal distance yields `64/256 = 1/4`, not `1`,
refuting both the `raw/L` formula and the `raw = L` normalizes-to-one part. -/
theorem claim_C2_counterexample :
    hashDiff (List.replicate 64 false) (List.replicate 64 true) = 64 ∧
    (List.replicate 64 false).length = 64 ∧
    (List.replicate 64 true).length = 64 ∧
    normalizeScore 64 = 1 / 4 ∧
    normalizeScore 64 ≠ 1 ∧
    normalizeScore 64 ≠ (64 : ℚ) / 64 := by
  refine ⟨by decide, by decide, by decide, ?_, ?_, ?_⟩ <;>
    norm_num [normalizeScore]

/-- C2 (amended): the Distance Normalizer maps a raw integer distance to
`raw/256` regardless of the bit-length `L`; for fingerprints of equal length
`L` the score lies in `[0, L/256]`, and it equals `1` only when `raw = 256`. -/
theorem claim_C2_theorem (h1 h2 : List Bool) (L : ℕ) (hl1 : h1.length = L)
    (hl2 : h2.length = L) :
    normalizeScore (hashDiff h1 h2) = (hashDiff h1 h2 : ℚ) / 256 ∧
    0 ≤ normalizeScore (hashDiff h1 h2) ∧
    normalizeScore (hashDiff h1 h2) ≤ (L : ℚ) / 256 ∧
    normalizeScore L = (L : ℚ) / 256 ∧
    (∀ raw : ℕ, normalizeScore raw = 1 ↔ raw = 256) := by
  refine ⟨rfl, ?_, ?_, rfl, ?_⟩
  · exact div_nonneg (Nat.cast_nonneg _) (by norm_num)
  · rw [normalizeScore]
    have hle : (hashDiff h1 h2 : ℚ) ≤ (L : ℚ) := by
      exact_mod_cast hl1 ▸ hashDiff_le_length h1 h2
    exact (div_le_div_iff_of_pos_right (by norm_num : (0 : ℚ) < 256)).mpr hle
  · intro raw
    rw [normalizeScore, div_eq_one_iff_eq (by norm_num : (256 : ℚ) ≠ 0)]
    exact_mod_cast Iff.rfl

/-- C2 witness: the amended statement evaluated at two concrete 64-bit
fingerprints that differ everywhere. -/
theorem claim_C2_witness :
    normalizeScore (hashDiff (List.replicate 64 false) (List.replicate 64 true)) =
      (hashDiff (List.replicate 64 false) (List.replicate 64 true) : ℚ) / 256 ∧
    0 ≤ normalizeScore (hashDiff (List.replicate 64 false) (List.replicate 64 true)) ∧
    normalizeScore (hashDiff (List.replicate 64 false) (List.replicate 64 true)) ≤
      ((64 : ℕ) : ℚ) / 256 ∧
    normalizeScore 64 = ((64 : ℕ) : ℚ) / 256 ∧
    (∀ raw : ℕ, normalizeScore raw = 1 ↔ raw = 256) :=
  claim_C2_theorem (List.replicate 64 false) (List.replicate 64 true) 64
    (by decide) (by decide)

/-- C5: the claim says that at `completed = 0` the reporter reports the ETA
as 0 or unknown; the code (lines 70-72) sets the per-image time to 0, so the
ETA it reports is `0 × total − elapsed = −elapsed`, a negative number for any
positive elapsed time, not 0 and not an unknown marker. -/
theorem claim_C5_counterexample :
    eta_calc 10 0 5 = -10 ∧ eta_calc 10 0 5 ≠ 0 := by
  constructor <;> norm_num [eta_calc]

/-- C5 (amended): for `completed > 0` the ETA is the linear extrapolation
`(elapsed/completed) × total − elapsed`; at `completed = 0` no division by
zero occurs because the per-item time is taken as 0, and the reported ETA is
`−elapsed` (which is 0 only when the elapsed time is 0). -/
theorem claim_C5_theorem :
    (∀ (elapsed_time : ℚ) (progress total_images : ℕ), 0 < progress →
      eta_calc elapsed_time progress total_images =
        elapsed_time / progress * total_images - elapsed_time) ∧
    (∀ (elapsed_time : ℚ) (total_images : ℕ),
      eta_calc elapsed_time 0 total_images = -elapsed_time) := by
  constructor
  · intro e pr tot h
    simp [eta_calc, h]
  · intro e tot
    simp [eta_calc]

/-- C5 witness: the two branches of the ETA formula at concrete inputs. -/
theorem claim_C5_witness :
    (eta_calc 10 2 5 = 10 / ((2 : ℕ) : ℚ) * ((5 : ℕ) : ℚ) - 10) ∧
    (eta_calc 10 0 5 = -10) :=
  ⟨claim_C5_theorem.1 10 2 5 (by norm_num), claim_C5_theorem.2 10 5⟩

theorem outerConsole_false (total : ℕ) :
    ∀ (files : List ImageFile) (p : ℕ), outerConsole false total p files = [] := by
  intro files
  induction files with
  | nil => intro p; rfl
  | cons a rest ih =>
    intro p
    rw [outerConsole, ih (p + 1)]
    simp [pairLines]

theorem runConsole_false (p : String) (files : List ImageFile) :
    runConsole false p files = [] := by
  simp [runConsole, outerConsole_false]

theorem specGroups_pair_pos {t : ℚ} {a b : ImageFile}
    (hq : t ≤ pairScore a b) :
    specGroups t [a, b] = [(mkLabel 1,
      [(basename a.path, pairScore a b), (basename b.path, pairScore a b)])] := by
  rw [specGroups, specGroupsAux]
  simp only [anchorEntries_cons_pos [] hq, anchorEntries_nil]
  rw [specGroupsAux]
  simp [specGroupsAux, anchorEntries_nil]

theorem specGroups_pair_neg {t : ℚ} {a b : ImageFile}
    (hq : ¬ t ≤ pairScore a b) :
    specGroups t [a, b] = [] := by
  rw [specGroups, specGroupsAux]
  simp only [anchorEntries_cons_neg [] hq, anchorEntries_nil]
  rw [specGroupsAux]
  simp [specGroupsAux, anchorEntries_nil]

/-- C1: two identical images score 0, but with the code's qualifying test
`score ≥ threshold` (line 60) a score of 0 fails every threshold `> 0`: at
threshold `1/2 > 0` the run on exactly the two identical images produces no
group at all, refuting "they are placed together in some similarity group
for every threshold strictly greater than 0". -/
theorem claim_C1_counterexample :
    calculate_similarity_index imgA imgB = .ok 0 ∧
    (0 : ℚ) < 1 / 2 ∧
    coreResult (generate_similarity_groups [imgA, imgB] (1 / 2) "out.csv"
      false false 1) = .ok ([], [csvHeader]) := by
  have hps : pairScore imgA imgB = 0 := by
    have h0 : hashDiff (imgA.decoded.getD []) (imgB.decoded.getD []) = 0 := rfl
    rw [pairScore, h0]
    norm_num [normalizeScore]
  have hq : ¬ (1 / 2 : ℚ) ≤ pairScore imgA imgB := by
    rw [hps]; norm_num
  refine ⟨rfl, by norm_num, ?_⟩
  rw [generate_eq' [imgA, imgB] (1 / 2) "out.csv" false false 1 (by decide),
    specGroups_pair_neg hq]
  rfl

/-- C1 (amended): two identical images have raw distance 0 and normalized
score 0; the identity edge qualifies exactly when the threshold is ≤ 0, so
on a list of just the two images every threshold ≤ 0 puts them together in
the single produced group, and every threshold > 0 produces no group. -/
theorem claim_C1_theorem (a b : ImageFile) (fp : List Bool)
    (ha : a.decoded = some fp) (hb : b.decoded = some fp) :
    calculate_similarity_index a b = .ok 0 ∧
    pairScore a b = 0 ∧
    (∀ (t : ℚ) (p : String) (v u : Bool) (bs : ℕ), t ≤ 0 →
      generate_similarity_groups [a, b] t p v u bs =
        .ok ⟨[(mkLabel 1, [(basename a.path, 0), (basename b.path, 0)])],
          csvRows [(mkLabel 1, [(basename a.path, 0), (basename b.path, 0)])],
          runConsole v p [a, b], 2⟩) ∧
    (∀ (t : ℚ) (p : String) (v u : Bool) (bs : ℕ), 0 < t →
      generate_similarity_groups [a, b] t p v u bs =
        .ok ⟨[], [csvHeader], runConsole v p [a, b], 2⟩) := by
  have hcalc : calculate_similarity_index a b = .ok 0 := by
    rw [calculate_ok ha hb, hashDiff_self]
  have hps : pairScore a b = 0 := by
    simp [pairScore, ha, hb, hashDiff_self, normalizeScore]
  have hdec : ∀ f ∈ [a, b], f.decoded.isSome := by
    intro f hf
    rcases List.mem_cons.mp hf with rfl | hf'
    · simp [ha]
    · rcases List.mem_cons.mp hf' with rfl | hf''
      · simp [hb]
      · simp at hf''
  refine ⟨hcalc, hps, ?_, ?_⟩
  · intro t p v u bs ht
    rw [generate_eq' [a, b] t p v u bs hdec]
    have hq : t ≤ pairScore a b := by rw [hps]; exact ht
    have hspec : specGroups t [a, b] =
        [(mkLabel 1, [(basename a.path, 0), (basename b.path, 0)])] := by
      rw [specGroups, specGroupsAux]
      simp only [anchorEntries_cons_pos [] hq, anchorEntries_nil, hps]
      rw [specGroupsAux]
      simp [specGroupsAux, anchorEntries_nil]
    rw [hspec]
    rfl
  · intro t p v u bs ht
    rw [generate_eq' [a, b] t p v u bs hdec]
    have hq : ¬ t ≤ pairScore a b := by rw [hps]; exact not_le.mpr ht
    have hspec : specGroups t [a, b] = [] := by
      rw [specGroups, specGroupsAux]
      simp only [anchorEntries_cons_neg [] hq, anchorEntries_nil]
      rw [specGroupsAux]
      simp [specGroupsAux, anchorEntries_nil]
    rw [hspec]
    rfl

/-- C1 witness: the amended statement evaluated at the two concrete identical
images `imgA` and `imgB`. -/
theorem claim_C1_witness :
    calculate_similarity_index imgA imgB = .ok 0 ∧
    pairScore imgA imgB = 0 ∧
    (∀ (t : ℚ) (p : String) (v u : Bool) (bs : ℕ), t ≤ 0 →
      generate_similarity_groups [imgA, imgB] t p v u bs =
        .ok ⟨[(mkLabel 1, [(basename imgA.path, 0), (basename imgB.path, 0)])],
          csvRows [(mkLabel 1, [(basename imgA.path, 0), (basename imgB.path, 0)])],
          runConsole v p [imgA, imgB], 2⟩) ∧
    (∀ (t : ℚ) (p : String) (v u : Bool) (bs : ℕ), 0 < t →
      generate_similarity_groups [imgA, imgB] t p v u bs =
        .ok ⟨[], [csvHeader], runConsole v p [imgA, imgB], 2⟩) :=
  claim_C1_theorem imgA imgB [false, false, true, true] rfl rfl

theorem pairScoreAC : pairScore imgA imgC = 1 / 64 := by
  have h4 : hashDiff (imgA.decoded.getD []) (imgC.decoded.getD []) = 4 := rfl
  rw [pairScore, h4]
  norm_num [normalizeScore]

theorem run_AC_low :
    generate_similarity_groups [imgA, imgC] (1 / 256) "out.csv" false false 1 =
      .ok outAC := by
  have hq : (1 / 256 : ℚ) ≤ pairScore imgA imgC := by rw [pairScoreAC]; norm_num
  rw [generate_eq' [imgA, imgC] (1 / 256) "out.csv" false false 1 (by decide),
    specGroups_pair_pos hq, pairScoreAC, runConsole_false]
  rfl

theorem run_AC_zero :
    generate_similarity_groups [imgA, imgC] 0 "out.csv" false false 1 =
      .ok outAC := by
  have hq : (0 : ℚ) ≤ pairScore imgA imgC := by rw [pairScoreAC]; norm_num
  rw [generate_eq' [imgA, imgC] 0 "out.csv" false false 1 (by decide),
    specGroups_pair_pos hq, pairScoreAC, runConsole_false]
  rfl

theorem run_AC_high :
    generate_similarity_groups [imgA, imgC] (1 / 2) "out.csv" false false 1 =
      .ok outACempty := by
  have hq : ¬ (1 / 2 : ℚ) ≤ pairScore imgA imgC := by rw [pairScoreAC]; norm_num
  rw [generate_eq' [imgA, imgC] (1 / 2) "out.csv" false false 1 (by decide),
    specGroups_pair_neg hq, runConsole_false]
  rfl

theorem run_AC_verbose :
    generate_similarity_groups [imgA, imgC] (1 / 256) "out.csv" true false 1 =
      .ok outACv := by
  have hq : (1 / 256 : ℚ) ≤ pairScore imgA imgC := by rw [pairScoreAC]; norm_num
  have hc : runConsole true "out.csv" [imgA, imgC] =
      [ConsoleEvent.header, ConsoleEvent.pairLine "imgs/a.jpg" "imgs/c.png" (1 / 64),
        ConsoleEvent.progressLine 1 2, ConsoleEvent.progressLine 2 2,
        ConsoleEvent.footer "out.csv"] := by
    have hpa : imgA.path = "imgs/a.jpg" := rfl
    have hpc : imgC.path = "imgs/c.png" := rfl
    rw [runConsole]
    simp [outerConsole, pairLines, pairScoreAC, hpa, hpc]
  rw [generate_eq' [imgA, imgC] (1 / 256) "out.csv" true false 1 (by decide),
    specGroups_pair_pos hq, pairScoreAC, hc]
  rfl

/-- C3: the Grouping Engine refines the per-anchor state machine of §4.3:
whatever a successful run returns, its groups equal `specGroups`, the direct
transcription of the spec's state machine (first qualifying edge opens a
group labeled with the next sequential integer and appends anchor and
partner entries, later qualifying edges append to the same open group
duplicating the anchor entry, and a group closes for good when the anchor
advances). -/
theorem claim_C3_theorem {files : List ImageFile} {t : ℚ} {p : String}
    {v u : Bool} {b : ℕ} {out : RunOutput}
    (h : generate_similarity_groups files t p v u b = .ok out) :
    out.groups = specGroups t files :=
  generate_ok_groups h

/-- C3 witness: the refinement evaluated on a concrete two-image run that
produces one group. -/
theorem claim_C3_witness : outAC.groups = specGroups (1 / 256) [imgA, imgC] :=
  claim_C3_theorem run_AC_low

/-- C4: the comparator enumerates exactly the pairs (i, j) with i < j < N,
each exactly once, N(N-1)/2 of them in row-major order (the verbose pair
lines of a successful run list them in exactly that order); the progress
counter ends at N and exactly one progress line is printed per anchor, not
per pair; and a single-pair inner loop emits the edge's entries exactly when
score ≥ threshold. -/
theorem claim_C4_theorem :
    (∀ n i j : ℕ, ((i, j) ∈ comparedPairs (List.range n) ↔ i < j ∧ j < n)) ∧
    (∀ n : ℕ, (comparedPairs (List.range n)).Nodup) ∧
    (∀ (α : Type) (l : List α),
      (comparedPairs l).length = l.length * (l.length - 1) / 2) ∧
    (∀ (files : List ImageFile) (t : ℚ) (p : String) (u : Bool) (b : ℕ)
      (out : RunOutput),
      generate_similarity_groups files t p true u b = .ok out →
      consolePairLines out.console = (comparedPairs files).map
        (fun ab => ConsoleEvent.pairLine ab.1.path ab.2.path (pairScore ab.1 ab.2)) ∧
      out.progress = files.length ∧
      (consoleProgressLines out.console).length = files.length) ∧
    (∀ (t : ℚ) (a b : ImageFile) (xa xb : List Bool),
      a.decoded = some xa → b.decoded = some xb →
      innerLoop a [b] t false none [] [] =
        .ok (if t ≤ pairScore a b
          then (some (mkLabel 1), [(mkLabel 1,
            [(basename a.path, pairScore a b), (basename b.path, pairScore a b)])],
            ([] : List ConsoleEvent))
          else (none, [], []))) := by
  refine ⟨fun n i j => comparedPairs_range_mem n i j, comparedPairs_range_nodup,
    fun α l => comparedPairs_length l, ?_, ?_⟩
  · intro files t p u b out h
    rw [generate_ok_eq h]
    refine ⟨?_, rfl, ?_⟩
    · simp only [runConsole, consolePairLines_append,
        consolePairLines_outerConsole]
      simp [consolePairLines]
    · simp only [runConsole, consoleProgressLines_append, if_true]
      have h1 : consoleProgressLines [ConsoleEvent.header] = [] := rfl
      have h2 : consoleProgressLines [ConsoleEvent.footer p] = [] := rfl
      rw [h1, h2]
      simpa using consoleProgressLines_outerConsole files.length files 0
  · intro t a b xa xb ha hb
    rw [innerLoop_none a t false [] (by simp) ha [b] (by simp [hb]) []]
    by_cases hq : t ≤ pairScore a b
    · rw [if_pos hq]
      simp [anchorEntries_cons_pos [] hq, anchorEntries_nil, pairLines, hq]
    · rw [if_neg hq]
      simp [anchorEntries_cons_neg [] hq, anchorEntries_nil, pairLines, hq]

/-- C4 witness: the run-level component evaluated on a concrete verbose run
over two images. -/
theorem claim_C4_witness :
    consolePairLines outACv.console = (comparedPairs [imgA, imgC]).map
      (fun ab => ConsoleEvent.pairLine ab.1.path ab.2.path (pairScore ab.1 ab.2)) ∧
    outACv.progress = [imgA, imgC].length ∧
    (consoleProgressLines outACv.console).length = [imgA, imgC].length :=
  claim_C4_theorem.2.2.2.1 [imgA, imgC] (1 / 256) "out.csv" false 1 outACv
    run_AC_verbose

/-- C6: when an image that fails to decode is part of the list and there are
at least two images (so the comparison phase reaches some pair containing
it), the run propagates the decode error and never returns a completed
output — in the embedding the CSV only exists inside a successful
`RunOutput`, so no partial report is produced. -/
theorem claim_C6_theorem (files : List ImageFile) (f : ImageFile)
    (hf : f ∈ files) (hnone : f.decoded = none) (hlen : 2 ≤ files.length)
    (t : ℚ) (p : String) (v u : Bool) (b : ℕ) :
    (∃ e, generate_similarity_groups files t p v u b = .error e) ∧
    (∀ out : RunOutput, generate_similarity_groups files t p v u b ≠ .ok out) := by
  obtain ⟨e, he⟩ := generate_error files t p v u b ⟨f, hf, hnone⟩ hlen
  refine ⟨⟨e, he⟩, fun out hout => ?_⟩
  rw [he] at hout
  cases hout

/-- C6 witness: a concrete run over a good image and an undecodable one. -/
theorem claim_C6_witness :
    (∃ e, generate_similarity_groups [imgA, imgBad] (1 / 2) "o" false false 1 =
      .error e) ∧
    (∀ out : RunOutput,
      generate_similarity_groups [imgA, imgBad] (1 / 2) "o" false false 1 ≠
        .ok out) :=
  claim_C6_theorem [imgA, imgBad] imgBad
    (List.mem_cons_of_mem imgA (List.mem_cons_self imgBad [])) rfl
    (le_refl 2) (1 / 2) "o" false false 1

/-- C7: strictly raising the threshold only removes qualifying edges (a score
meeting the higher threshold meets the lower one), and the entries of the
groups produced at the higher threshold form a sublist — in particular a
subset in content — of those produced at the lower threshold on the same
image list. -/
theorem claim_C7_theorem {files : List ImageFile} {t1 t2 : ℚ}
    (h12 : t1 < t2) {p1 p2 : String} {v1 v2 u1 u2 : Bool} {b1 b2 : ℕ}
    {out1 out2 : RunOutput}
    (h1 : generate_similarity_groups files t1 p1 v1 u1 b1 = .ok out1)
    (h2 : generate_similarity_groups files t2 p2 v2 u2 b2 = .ok out2) :
    (∀ a b : ImageFile, t2 ≤ pairScore a b → t1 ≤ pairScore a b) ∧
    (allEntries out2.groups).Sublist (allEntries out1.groups) ∧
    (∀ e ∈ allEntries out2.groups, e ∈ allEntries out1.groups) := by
  have hg1 := generate_ok_groups h1
  have hg2 := generate_ok_groups h2
  have hsub : (allEntries out2.groups).Sublist (allEntries out1.groups) := by
    rw [hg1, hg2, specGroups, specGroups]
    exact allEntries_specGroupsAux_sublist h12.le files 0 0
  exact ⟨fun a b hq => le_trans h12.le hq, hsub, fun e he => hsub.subset he⟩

/-- C7 witness: concrete runs over the same two images at thresholds 0 and
1/2; the edge qualifies at 0 and not at 1/2. -/
theorem claim_C7_witness :
    (∀ a b : ImageFile, (1 / 2 : ℚ) ≤ pairScore a b → (0 : ℚ) ≤ pairScore a b) ∧
    (allEntries outACempty.groups).Sublist (allEntries outAC.groups) ∧
    (∀ e ∈ allEntries outACempty.groups, e ∈ allEntries outAC.groups) :=
  claim_C7_theorem (by norm_num) run_AC_zero run_AC_high

/-- C8: on an empty or single-image list the comparator visits no pair, a
successful run is produced (exit code 0), it contains no group, and its
report is exactly the header row; the console carries no per-pair line. -/
theorem claim_C8_theorem (files : List ImageFile) (hlen : files.length ≤ 1)
    (t : ℚ) (p : String) (v u : Bool) (b : ℕ) :
    comparedPairs files = [] ∧
    ∃ out : RunOutput, generate_similarity_groups files t p v u b = .ok out ∧
      out.groups = [] ∧ out.csv = [csvHeader] ∧
      consolePairLines out.console = [] := by
  cases files with
  | nil =>
    refine ⟨rfl, ⟨[], [csvHeader], runConsole v p [], 0⟩,
      generate_nil t p v u b, rfl, rfl, ?_⟩
    cases v <;> rfl
  | cons a rest =>
    cases rest with
    | nil =>
      refine ⟨rfl, ⟨[], [csvHeader], runConsole v p [a], 1⟩,
        generate_singleton a t p v u b, rfl, rfl, ?_⟩
      cases v <;> rfl
    | cons c rest' =>
      exfalso
      simp at hlen

/-- C8 witness: the single-image scenario at a concrete image and threshold. -/
theorem claim_C8_witness :
    comparedPairs [imgA] = [] ∧
    ∃ out : RunOutput,
      generate_similarity_groups [imgA] (1 / 2) "o" false false 1 = .ok out ∧
      out.groups = [] ∧ out.csv = [csvHeader] ∧
      consolePairLines out.console = [] :=
  claim_C8_theorem [imgA] (le_refl 1) (1 / 2) "o" false false 1

/-- C9: every group a successful run produces has an even, strictly positive
number of entries, laid out as consecutive (anchor, partner) pairs in which
both entries carry the same similarity score, and every entry at an even
position is the display name of the group's anchor image. -/
theorem claim_C9_theorem {files : List ImageFile} {t : ℚ} {p : String}
    {v u : Bool} {b : ℕ} {out : RunOutput}
    (h : generate_similarity_groups files t p v u b = .ok out) :
    ∀ g ∈ out.groups, ∃ na : String,
      g.2.length % 2 = 0 ∧ 0 < g.2.length ∧
      ∀ k : ℕ, 2 * k + 1 < g.2.length →
        ∃ e1 e2 : GroupEntry, g.2.get? (2 * k) = some e1 ∧
          g.2.get? (2 * k + 1) = some e2 ∧ e1.1 = na ∧ e1.2 = e2.2 := by
  intro g hg
  rw [generate_ok_groups h, specGroups] at hg
  obtain ⟨a, rest, hgE, hne⟩ := specGroupsAux_mem hg
  refine ⟨basename a.path, ?_, List.length_pos.mpr hne, ?_⟩
  · rw [hgE, anchorEntries_chunk, chunk_length]
    omega
  · intro k hk
    rw [hgE, anchorEntries_chunk] at hk ⊢
    rw [chunk_length] at hk
    have hkps : k < (anchorPartners t a rest).length := by omega
    obtain ⟨heven, hodd⟩ := chunk_get? (basename a.path) (anchorPartners t a rest) k
    have hq : (anchorPartners t a rest).get? k =
        some ((anchorPartners t a rest).get ⟨k, hkps⟩) := List.get?_eq_get hkps
    refine ⟨(basename a.path, ((anchorPartners t a rest).get ⟨k, hkps⟩).2),
      (anchorPartners t a rest).get ⟨k, hkps⟩, ?_, ?_, rfl, rfl⟩
    · rw [heven, hq]
      rfl
    · rw [hodd, hq]

/-- C9 witness: the invariant evaluated on the one concrete group the
fixture run produces. -/
theorem claim_C9_witness :
    ∃ na : String, gAC.2.length % 2 = 0 ∧ 0 < gAC.2.length ∧
      ∀ k : ℕ, 2 * k + 1 < gAC.2.length →
        ∃ e1 e2 : GroupEntry, gAC.2.get? (2 * k) = some e1 ∧
          gAC.2.get? (2 * k + 1) = some e2 ∧ e1.1 = na ∧ e1.2 = e2.2 :=
  claim_C9_theorem run_AC_low gAC (by simp [outAC])

/-- C10: the grouping outcome and the report rows of a run are independent
of the `verbose`, `use_light_model` and `batch_size` parameters: two runs on
the same list and threshold that differ only in those flags agree on the
error/success status and, on success, on groups and CSV rows (the flags
affect only the console transcript). -/
theorem claim_C10_theorem (files : List ImageFile) (t : ℚ) (p : String)
    (v1 u1 : Bool) (b1 : ℕ) (v2 u2 : Bool) (b2 : ℕ) :
    coreResult (generate_similarity_groups files t p v1 u1 b1) =
      coreResult (generate_similarity_groups files t p v2 u2 b2) :=
  generate_core_indep files t p v1 u1 b1 v2 u2 b2
